import Mathlib

/-!
Verification of the market-aggregator-portal core
(src/packages/market-aggregator-portal/src/lib/data-aggregator.ts).

Strings are modelled as `List Char`, JavaScript numbers as `ℚ`
(the similarity score, an integer, as `ℤ`), JavaScript `Map`s as
insertion-ordered association lists, promises/exceptions as `Except`,
and optional record fields as `Option`.
-/

namespace MarketAggregator

/-- JavaScript `Math.round` for the non-negative values produced here:
round half away from zero is `⌊q + 1/2⌋` for `q ≥ 0`. -/
def jsRound (q : ℚ) : ℤ := ⌊q + 1 / 2⌋

/-- JavaScript whitespace test for the characters relevant to `String.prototype.trim`. -/
def isJsSpace (c : Char) : Bool := c = ' ' || c = '\t' || c = '\n' || c = '\r'

/-- JavaScript `String.prototype.trim`: strip whitespace from both ends. -/
def jsTrim (l : List Char) : List Char :=
  ((l.dropWhile isJsSpace).reverse.dropWhile isJsSpace).reverse

/-- Test for `[a-z0-9]`, the character class kept by `normalizeText`. -/
def isLowerAlnum (c : Char) : Bool :=
  ('a' ≤ c && c ≤ 'z') || ('0' ≤ c && c ≤ '9')

/-- JavaScript `Map.prototype.get` over an insertion-ordered association list. -/
def mapLookup {K V : Type} [DecidableEq K] (m : List (K × V)) (k : K) : Option V :=
  (m.find? fun e => decide (e.1 = k)).map (·.2)

/-- JavaScript `Map.prototype.set`: overwrite in place when the key is present
(insertion position is retained), append otherwise. -/
def mapSet {K V : Type} [DecidableEq K] (m : List (K × V)) (k : K) (v : V) : List (K × V) :=
  if m.any (fun e => decide (e.1 = k)) then
    m.map (fun e => if e.1 = k then (k, v) else e)
  else
    m ++ [(k, v)]

/-- JavaScript `[...new Set(l)]`: deduplicate keeping first-insertion order. -/
def uniqueList {α : Type} [DecidableEq α] (l : List α) : List α :=
  l.foldl (fun acc x => if x ∈ acc then acc else acc ++ [x]) []

/-- The `RawAssetData` interface. The free-form `metadata` field is never read
by the aggregation pipeline and is omitted. -/
structure RawAssetData where
  source : List Char
  externalId : List Char
  name : List Char
  symbol : Option (List Char)
  price : ℚ
  currency : List Char
  volume : Option ℚ
  marketCap : Option ℚ
deriving DecidableEq, Repr, Inhabited

/-- The `NormalizedAsset` interface. The `lastUpdated : Date` field (wall-clock
time) is modelled as `Unit`. -/
structure NormalizedAsset where
  id : List Char
  name : List Char
  symbol : List Char
  price : ℚ
  change24h : ℚ
  volume : ℚ
  marketCap : ℚ
  sources : List (List Char)
  lastUpdated : Unit
deriving DecidableEq, Repr

/-- Source category enum of the `DataSource` interface. -/
inductive SourceType where
  | crypto
  | ecommerce
  | realestate
deriving DecidableEq, Repr

instance {ε α : Type} [DecidableEq ε] [DecidableEq α] : DecidableEq (Except ε α) := fun x y =>
  match x, y with
  | .error e, .error f =>
    if h : e = f then .isTrue (by rw [h])
    else .isFalse (fun c => h (by cases c; rfl))
  | .ok a, .ok b =>
    if h : a = b then .isTrue (by rw [h])
    else .isFalse (fun c => h (by cases c; rfl))
  | .error _, .ok _ => .isFalse (fun c => by cases c)
  | .ok _, .error _ => .isFalse (fun c => by cases c)

/-- The `DataSource` interface. `fetchData` is modelled by the settled outcome
of its promise: either a list of records or a rejection (error message). -/
structure DataSource where
  name : List Char
  type : SourceType
  fetchData : Except (List Char) (List RawAssetData)
  rateLimit : ℚ
deriving DecidableEq, Repr

/-! ## ProductMatcher -/

/-- ProductMatcher.normalizeText:
`text.toLowerCase().replace(/[^a-z0-9]/g, '').trim()`. -/
def normalizeText (text : List Char) : List Char :=
  jsTrim ((text.map Char.toLower).filter isLowerAlnum)

/-- Inner loop of `ProductMatcher.levenshteinDistance`: fill the cells
`matrix[i][1..]` of one row. `prev` is the tail of the previous row starting
at the diagonal cell `matrix[i-1][j-1]`, `left` is the cell `matrix[i][j-1]`
just written, `c2` is `str2.charAt(i-1)`, and the remaining characters of
`str1` drive the columns. -/
def fillCells : List ℕ → ℕ → Char → List Char → List ℕ
  | _, _, _, [] => []
  | prev, left, c2, c1 :: rest =>
    let diag := prev.headD 0
    let up := prev.tail.headD 0
    let cell := if c2 = c1 then diag else min (diag + 1) (min (left + 1) (up + 1))
    cell :: fillCells prev.tail cell c2 rest

/-- ProductMatcher.levenshteinDistance: the standard dynamic-programming table,
built row by row. Row 0 is `[0, 1, ..., str1.length]`; row `i` starts with `i`
and is filled from row `i-1`; the result is `matrix[str2.length][str1.length]`,
the last cell of the final row. -/
def levenshteinDistance (str1 str2 : List Char) : ℕ :=
  let row0 : List ℕ := List.range (str1.length + 1)
  let final := str2.foldl
    (fun (st : List ℕ × ℕ) c2 =>
      let i := st.2 + 1
      (i :: fillCells st.1 i c2 str1, i))
    (row0, 0)
  final.1.getLastD 0

/-- ProductMatcher.calculateSimilarity: 100 on equal normalizations, else the
rounded Levenshtein similarity percentage. -/
def calculateSimilarity (name1 name2 : List Char) : ℤ :=
  let norm1 := normalizeText name1
  let norm2 := normalizeText name2
  if norm1 = norm2 then 100
  else
    let distance := levenshteinDistance norm1 norm2
    let maxLength := max norm1.length norm2.length
    if maxLength = 0 then 0
    else jsRound (((maxLength : ℚ) - (distance : ℚ)) / (maxLength : ℚ) * 100)

/-- Inner-loop condition of `ProductMatcher.findMatches`:
`similarity >= threshold`. -/
def matchPred (threshold : ℚ) (seed candidate : RawAssetData) : Bool :=
  decide (threshold ≤ (calculateSimilarity seed.name candidate.name : ℚ))

/-- Loop structure of `ProductMatcher.findMatches`: the first not-yet-processed
record seeds a new group; every later unprocessed record whose similarity to
the seed reaches the threshold joins the group and is marked processed. The
group is keyed by the seed record's unmodified name. -/
def findMatchesGroups (threshold : ℚ) : List RawAssetData → List (List Char × List RawAssetData)
  | [] => []
  | p :: rest =>
    let members := rest.filter (matchPred threshold p)
    let others := rest.filter (fun q => !(matchPred threshold p q))
    (p.name, p :: members) :: findMatchesGroups threshold others
termination_by l => l.length
decreasing_by
  simp only [List.length_cons]
  exact Nat.lt_succ_of_le (List.length_filter_le _ rest)

/-- ProductMatcher.findMatches: the groups are stored in a JavaScript `Map`
via `matches.set(canonicalName, group)`. -/
def findMatches (products : List RawAssetData) (threshold : ℚ) :
    List (List Char × List RawAssetData) :=
  (findMatchesGroups threshold products).foldl (fun m kv => mapSet m kv.1 kv.2) []

/-! ## DataAggregator -/

/-- Mutable state of the `DataAggregator` class: the registered sources and the
exchange-rate table (a JavaScript `Map` initialised to `[['USD', 1]]`). The
stateless `matcher` field is represented by the free functions above. -/
structure DataAggregator where
  sources : List DataSource
  exchangeRates : List (List Char × ℚ)
deriving DecidableEq, Repr

/-- The freshly constructed aggregator: `new DataAggregator()`. -/
def initAggregator : DataAggregator :=
  { sources := [], exchangeRates := [(['U', 'S', 'D'], 1)] }

/-- DataAggregator.registerSource: `this.sources.push(source)`. -/
def registerSource (agg : DataAggregator) (source : DataSource) : DataAggregator :=
  { agg with sources := agg.sources ++ [source] }

/-- DataAggregator.updateExchangeRates: `Object.entries(rates).forEach(set)`. -/
def updateExchangeRates (agg : DataAggregator) (rates : List (List Char × ℚ)) :
    DataAggregator :=
  { agg with exchangeRates := rates.foldl (fun m e => mapSet m e.1 e.2) agg.exchangeRates }

/-- JavaScript `x || 1` applied to the result of `Map.get`: `undefined` and the
falsy number `0` both fall through to `1`. -/
def jsOrOne (x : Option ℚ) : ℚ :=
  match x with
  | none => 1
  | some r => if r = 0 then 1 else r

/-- DataAggregator.convertToUSD: `price / (this.exchangeRates.get(currency) || 1)`. -/
def convertToUSD (agg : DataAggregator) (price : ℚ) (currency : List Char) : ℚ :=
  price / jsOrOne (mapLookup agg.exchangeRates currency)

/-- One task of the `fetchAllSources` fan-out: `try { return await
source.fetchData() } catch { console.error(...); return [] }`. The task's
promise always fulfills. -/
def sourceTask (source : DataSource) : Except (List Char) (List RawAssetData) :=
  match source.fetchData with
  | .ok records => .ok records
  | .error _ => .ok []

/-- JavaScript `Promise.all`: fulfill with the list of results in order, or
reject with the first rejection. -/
def promiseAll {ε α : Type} : List (Except ε α) → Except ε (List α)
  | [] => .ok []
  | .error e :: _ => .error e
  | .ok a :: ts => (promiseAll ts).map (fun rest => a :: rest)

/-- DataAggregator.fetchAllSources: map every registered source through the
error-isolating task, join with `Promise.all`, flatten one level. The method
does not write to the aggregator state, so the state is returned unchanged. -/
def fetchAllSources (agg : DataAggregator) :
    Except (List Char) (List RawAssetData) × DataAggregator :=
  ((promiseAll (agg.sources.map sourceTask)).map List.flatten, agg)

theorem dropWhileLengthLe {α : Type} (p : α → Bool) (l : List α) :
    (l.dropWhile p).length ≤ l.length := by
  induction l with
  | nil => simp
  | cons a t ih =>
    by_cases h : p a
    · simp only [List.dropWhile, h, List.length_cons]
      omega
    · simp [List.dropWhile, h]

/-- DataAggregator.generateId step 2: the dash-run replace, collapsing every
run of dashes to a single dash. -/
def collapseDashes : List Char → List Char
  | [] => []
  | c :: rest =>
    if c = '-' then '-' :: collapseDashes (rest.dropWhile (· = '-'))
    else c :: collapseDashes rest
termination_by l => l.length
decreasing_by
  · simp only [List.length_cons]
    exact Nat.lt_succ_of_le (dropWhileLengthLe _ rest)
  · simp

/-- DataAggregator.generateId step 3: `.replace(/^-|-$/g, '')`, removing one
leading and one trailing dash. -/
def trimOneDash (l : List Char) : List Char :=
  let l1 := if l.head? = some '-' then l.tail else l
  if l1.getLast? = some '-' then l1.dropLast else l1

/-- DataAggregator.generateId: lowercase, replace every character outside
`[a-z0-9]` with a dash, collapse dash runs, strip a leading/trailing dash. -/
def generateId (name : List Char) : List Char :=
  trimOneDash (collapseDashes
    ((name.map Char.toLower).map (fun c => if isLowerAlnum c then c else '-')))

/-- Body of the `matches.forEach` fold in `DataAggregator.aggregateData`: turn
one match group into a `NormalizedAsset`. `group[0]` is total in the source
because every group carries its seed; it is modelled by `headD`. -/
def aggregateGroup (agg : DataAggregator) (canonicalName : List Char)
    (group : List RawAssetData) : NormalizedAsset :=
  let prices := group.map (fun item => convertToUSD agg item.price item.currency)
  let avgPrice := prices.foldl (· + ·) 0 / (prices.length : ℚ)
  let totalVolume := group.foldl (fun sum item => sum + item.volume.getD 0) 0
  let totalMarketCap := group.foldl (fun sum item => sum + item.marketCap.getD 0) 0
  let sources := uniqueList (group.map (·.source))
  { id := generateId canonicalName
    name := canonicalName
    symbol := ((group.headD default).symbol).getD []
    price := avgPrice
    change24h := 0
    volume := totalVolume
    marketCap := totalMarketCap
    sources := sources
    lastUpdated := () }

/-- DataAggregator.aggregateData: fetch, match with the default threshold 80,
fold each group. A rejection of `fetchAllSources` would propagate through the
`await` (it never happens, see the fetch theorem). State is unchanged. -/
def aggregateData (agg : DataAggregator) :
    Except (List Char) (List NormalizedAsset) × DataAggregator :=
  (match (fetchAllSources agg).1 with
   | .error e => .error e
   | .ok rawData =>
     let matchGroups := findMatches rawData 80
     .ok (matchGroups.map fun kv => aggregateGroup agg kv.1 kv.2), agg)

/-! ## Specification-side Levenshtein distance

The textbook recursive Levenshtein distance, used as the reference
against which the dynamic-programming table of `levenshteinDistance`
is verified, together with the lemmas connecting the two. -/

/-- The recursive (textbook) Levenshtein edit distance with unit costs. -/
def levWF : List Char → List Char → ℕ
  | [], ys => ys.length
  | xs, [] => xs.length
  | x :: xs, y :: ys =>
    min ((if x = y then 0 else 1) + levWF xs ys)
      (min (1 + levWF xs (y :: ys)) (1 + levWF (x :: xs) ys))
termination_by xs ys => xs.length + ys.length
decreasing_by
  all_goals simp only [List.length_cons]
  all_goals omega

theorem levWF_nil_left (ys : List Char) : levWF [] ys = ys.length := by
  cases ys <;> simp [levWF]

theorem levWF_nil_right (xs : List Char) : levWF xs [] = xs.length := by
  cases xs <;> simp [levWF]

theorem levWF_cons_cons (x : Char) (xs : List Char) (y : Char) (ys : List Char) :
    levWF (x :: xs) (y :: ys) =
      min ((if x = y then 0 else 1) + levWF xs ys)
        (min (1 + levWF xs (y :: ys)) (1 + levWF (x :: xs) ys)) := by
  simp [levWF]

theorem levWF_le_cons_left (x : Char) (xs ys : List Char) :
    levWF (x :: xs) ys ≤ 1 + levWF xs ys := by
  cases ys with
  | nil =>
    simp only [levWF_nil_right, List.length_cons]
    omega
  | cons y ys =>
    rw [levWF_cons_cons]
    omega

theorem levWF_le_cons_right (xs : List Char) (y : Char) (ys : List Char) :
    levWF xs (y :: ys) ≤ 1 + levWF xs ys := by
  cases xs with
  | nil =>
    simp only [levWF_nil_left, List.length_cons]
    omega
  | cons x xs =>
    rw [levWF_cons_cons]
    omega

theorem levWF_le_insert_right (xs : List Char) (y : Char) (ys : List Char) :
    levWF xs ys ≤ 1 + levWF xs (y :: ys) := by
  induction xs generalizing ys with
  | nil =>
    simp only [levWF_nil_left, List.length_cons]
    omega
  | cons x xs ih =>
    have h3 := levWF_le_cons_left x xs ys
    have hih := ih ys
    rw [levWF_cons_cons]
    split <;> omega

theorem levWF_le_insert_left (x : Char) (xs ys : List Char) :
    levWF xs ys ≤ 1 + levWF (x :: xs) ys := by
  induction ys with
  | nil =>
    simp only [levWF_nil_right, List.length_cons]
    omega
  | cons y ys ih =>
    have h4 := levWF_le_cons_right xs y ys
    rw [levWF_cons_cons]
    split <;> omega

theorem levWF_cons_cons_eq (x y : Char) (xs ys : List Char) (h : x = y) :
    levWF (x :: xs) (y :: ys) = levWF xs ys := by
  subst h
  have h1 := levWF_le_insert_right xs x ys
  have h2 := levWF_le_insert_left x xs ys
  rw [levWF_cons_cons, if_pos rfl]
  omega

/-- Interchange of the first-character and last-character expansions of the
Levenshtein recurrence: the two orders of peeling produce the same minimum. -/
theorem minGridExchange (c d t8 t9 t10 t11 t12 t13 t14 t15 t16 : ℕ) :
    min (c + min (d + t8) (min (1 + t9) (1 + t10)))
      (min (1 + min (d + t11) (min (1 + t12) (1 + t13)))
        (1 + min (d + t14) (min (1 + t15) (1 + t16)))) =
    min (d + min (c + t8) (min (1 + t11) (1 + t14)))
      (min (1 + min (c + t9) (min (1 + t12) (1 + t15)))
        (1 + min (c + t10) (min (1 + t13) (1 + t16)))) := by
  simp only [← min_add_add_left]
  apply le_antisymm <;> simp only [le_min_iff, min_le_iff] <;> omega

theorem levWF_snoc_snoc (xs ys : List Char) (x y : Char) :
    levWF (xs ++ [x]) (ys ++ [y]) =
      min ((if x = y then 0 else 1) + levWF xs ys)
        (min (1 + levWF xs (ys ++ [y])) (1 + levWF (xs ++ [x]) ys)) := by
  suffices H : ∀ n (xs ys : List Char) (x y : Char), xs.length + ys.length ≤ n →
      levWF (xs ++ [x]) (ys ++ [y]) =
        min ((if x = y then 0 else 1) + levWF xs ys)
          (min (1 + levWF xs (ys ++ [y])) (1 + levWF (xs ++ [x]) ys)) from
    H (xs.length + ys.length) xs ys x y le_rfl
  intro n
  induction n with
  | zero =>
    intro xs ys x y h
    cases xs with
    | cons a X => simp at h
    | nil =>
      cases ys with
      | cons b Y => simp at h
      | nil =>
        simp only [List.nil_append]
        rw [levWF_cons_cons]
  | succ n ih =>
    intro xs ys x y h
    cases xs with
    | nil =>
      cases ys with
      | nil =>
        simp only [List.nil_append]
        rw [levWF_cons_cons]
      | cons b Y =>
        have e0 := levWF_cons_cons x [] b (Y ++ [y])
        have hIH := ih [] Y x y (by
          simp only [List.length_cons, List.length_nil] at h ⊢
          omega)
        have e1 := levWF_cons_cons x [] b Y
        simp only [List.cons_append, List.nil_append] at e0 hIH e1 ⊢
        simp only [levWF_nil_left, List.length_append, List.length_cons,
          List.length_nil] at e0 hIH e1 ⊢
        split_ifs at e0 hIH e1 ⊢ <;> omega
    | cons a X =>
      cases ys with
      | nil =>
        have e0 := levWF_cons_cons a (X ++ [x]) y []
        have hIH := ih X [] x y (by
          simp only [List.length_cons, List.length_nil] at h ⊢
          omega)
        have e1 := levWF_cons_cons a X y []
        simp only [List.cons_append, List.nil_append] at e0 hIH e1 ⊢
        simp only [levWF_nil_right, List.length_append, List.length_cons,
          List.length_nil] at e0 hIH e1 ⊢
        split_ifs at e0 hIH e1 ⊢ <;> omega
      | cons b Y =>
        have hXY : X.length + Y.length + 1 ≤ n := by
          simp only [List.length_cons] at h
          omega
        have e0 := levWF_cons_cons a (X ++ [x]) b (Y ++ [y])
        have hA := ih X Y x y (by omega)
        have hB := ih X (b :: Y) x y (by
          simp only [List.length_cons]
          omega)
        have hC := ih (a :: X) Y x y (by
          simp only [List.length_cons]
          omega)
        have e1 := levWF_cons_cons a X b Y
        have e2 := levWF_cons_cons a X b (Y ++ [y])
        have e3 := levWF_cons_cons a (X ++ [x]) b Y
        simp only [List.cons_append] at hB hC ⊢
        rw [e0, hA, hB, hC, e1, e2, e3]
        exact minGridExchange _ _ _ _ _ _ _ _ _ _ _

theorem levWF_reverse (xs ys : List Char) :
    levWF xs.reverse ys.reverse = levWF xs ys := by
  suffices H : ∀ n (xs ys : List Char), xs.length + ys.length ≤ n →
      levWF xs.reverse ys.reverse = levWF xs ys from
    H (xs.length + ys.length) xs ys le_rfl
  intro n
  induction n with
  | zero =>
    intro xs ys h
    cases xs with
    | cons a X => simp at h
    | nil =>
      cases ys with
      | cons b Y => simp at h
      | nil => simp
  | succ n ih =>
    intro xs ys h
    cases xs with
    | nil => simp [levWF_nil_left]
    | cons a X =>
      cases ys with
      | nil => simp [levWF_nil_right]
      | cons b Y =>
        simp only [List.reverse_cons]
        rw [levWF_snoc_snoc, levWF_cons_cons]
        have h1 := ih X Y (by
          simp only [List.length_cons] at h
          omega)
        have h2 : levWF X.reverse ((b :: Y).reverse) = levWF X (b :: Y) := ih X (b :: Y) (by
          simp only [List.length_cons] at h ⊢
          omega)
        have h3 : levWF ((a :: X).reverse) Y.reverse = levWF (a :: X) Y := ih (a :: X) Y (by
          simp only [List.length_cons] at h ⊢
          omega)
        simp only [List.reverse_cons] at h2 h3
        rw [h1, h2, h3]

theorem levenshtein_default_nil_left (ys : List Char) :
    levenshtein Levenshtein.defaultCost [] ys = ys.length := by
  induction ys with
  | nil => simp
  | cons b Y ih =>
    rw [levenshtein_nil_cons, ih]
    simp only [Levenshtein.defaultCost_insert, List.length_cons]
    omega

theorem levenshtein_default_nil_right (xs : List Char) :
    levenshtein Levenshtein.defaultCost xs [] = xs.length := by
  induction xs with
  | nil => simp
  | cons a X ih =>
    rw [levenshtein_cons_nil, ih]
    simp only [Levenshtein.defaultCost_delete, List.length_cons]
    omega

theorem levWF_eq_levenshtein (xs ys : List Char) :
    levWF xs ys = levenshtein Levenshtein.defaultCost xs ys := by
  suffices H : ∀ n (xs ys : List Char), xs.length + ys.length ≤ n →
      levWF xs ys = levenshtein Levenshtein.defaultCost xs ys from
    H (xs.length + ys.length) xs ys le_rfl
  intro n
  induction n with
  | zero =>
    intro xs ys h
    cases xs with
    | cons a X => simp at h
    | nil =>
      cases ys with
      | cons b Y => simp at h
      | nil => simp [levWF]
  | succ n ih =>
    intro xs ys h
    cases xs with
    | nil => rw [levWF_nil_left, levenshtein_default_nil_left]
    | cons a X =>
      cases ys with
      | nil => rw [levWF_nil_right, levenshtein_default_nil_right]
      | cons b Y =>
        rw [levWF_cons_cons, levenshtein_cons_cons]
        have h1 := ih X Y (by simp at h ⊢; omega)
        have h2 := ih X (b :: Y) (by simp at h ⊢; omega)
        have h3 := ih (a :: X) Y (by simp at h ⊢; omega)
        rw [← h1, ← h2, ← h3]
        simp only [Levenshtein.defaultCost_delete, Levenshtein.defaultCost_insert,
          Levenshtein.defaultCost_substitute]
        split_ifs <;> omega

/-- Reference value of one row suffix of the dynamic-programming table:
starting at the column whose processed `str1`-prefix (reversed) is `Arev`,
with `B` the reversed processed prefix of `str2`, the row holds the
distances of the successive prefixes against `B`. -/
def rowFrom (Arev B : List Char) : List Char → List ℕ
  | [] => [levWF Arev B]
  | c :: rest => levWF Arev B :: rowFrom (c :: Arev) B rest

theorem rowFrom_head_tail (Arev B : List Char) (suffix : List Char) :
    rowFrom Arev B suffix = levWF Arev B :: (rowFrom Arev B suffix).tail := by
  cases suffix <;> simp [rowFrom]

theorem fillCells_rowFrom (suffix : List Char) : ∀ (Arev B : List Char) (c2 : Char),
    fillCells (rowFrom Arev B suffix) (levWF Arev (c2 :: B)) c2 suffix =
      (rowFrom Arev (c2 :: B) suffix).tail := by
  induction suffix with
  | nil => intro Arev B c2; simp [rowFrom, fillCells]
  | cons c1 rest ih =>
    intro Arev B c2
    rw [rowFrom]
    rw [show rowFrom (c1 :: Arev) B rest =
          levWF (c1 :: Arev) B :: (rowFrom (c1 :: Arev) B rest).tail from
        rowFrom_head_tail _ _ _]
    rw [fillCells]
    have hcell :
        (if c2 = c1 then levWF Arev B
         else min (levWF Arev B + 1)
           (min (levWF Arev (c2 :: B) + 1) (levWF (c1 :: Arev) B + 1))) =
          levWF (c1 :: Arev) (c2 :: B) := by
      by_cases h : c2 = c1
      · rw [if_pos h, levWF_cons_cons_eq c1 c2 Arev B h.symm]
      · rw [if_neg h, levWF_cons_cons]
        have : ¬ c1 = c2 := fun hc => h hc.symm
        rw [if_neg this]
        omega
    simp only [List.headD_cons, List.tail_cons]
    rw [hcell]
    rw [← rowFrom_head_tail]
    rw [ih (c1 :: Arev) B c2]
    rw [rowFrom]
    rw [rowFrom_head_tail (c1 :: Arev) (c2 :: B) rest]
    simp only [List.tail_cons]

theorem rowFrom_nil_range (suffix : List Char) : ∀ (Arev : List Char),
    rowFrom Arev [] suffix = List.range' Arev.length (suffix.length + 1) := by
  induction suffix with
  | nil =>
    intro Arev
    simp [rowFrom, levWF_nil_right, List.range'_succ]
  | cons c rest ih =>
    intro Arev
    rw [rowFrom, ih (c :: Arev), levWF_nil_right]
    simp only [List.length_cons]
    rw [List.range'_succ, List.range'_succ, List.range'_succ]

theorem rowFrom_getLast (suffix : List Char) : ∀ (Arev B : List Char),
    (rowFrom Arev B suffix).getLast? = some (levWF (suffix.reverse ++ Arev) B) := by
  induction suffix with
  | nil => intro Arev B; simp [rowFrom]
  | cons c rest ih =>
    intro Arev B
    rw [rowFrom, rowFrom_head_tail (c :: Arev) B rest, List.getLast?_cons_cons,
      ← rowFrom_head_tail, ih (c :: Arev) B]
    simp [List.append_assoc]

theorem levenshteinDistance_loop (str1 : List Char) (cs : List Char) :
    ∀ (B : List Char) (k : ℕ), B.length = k →
    cs.foldl
      (fun (st : List ℕ × ℕ) c2 =>
        let i := st.2 + 1
        (i :: fillCells st.1 i c2 str1, i))
      (rowFrom [] B str1, k) =
      (rowFrom [] (cs.reverse ++ B) str1, k + cs.length) := by
  induction cs with
  | nil => intro B k hk; simp
  | cons c cs ih =>
    intro B k hk
    rw [List.foldl_cons]
    have hstep :
        ((k + 1 : ℕ) :: fillCells (rowFrom [] B str1) (k + 1) c str1, k + 1) =
          ((rowFrom [] (c :: B) str1 : List ℕ), k + 1) := by
      have hleft : levWF [] (c :: B) = k + 1 := by
        rw [levWF_nil_left, List.length_cons, hk]
      rw [← hleft, fillCells_rowFrom str1 [] B c, ← rowFrom_head_tail, hleft]
    simp only [hstep]
    rw [ih (c :: B) (k + 1) (by simp [hk])]
    simp [List.append_assoc]
    omega

theorem levenshteinDistance_eq_levWF (str1 str2 : List Char) :
    levenshteinDistance str1 str2 = levWF str1 str2 := by
  have hrow0 : List.range (str1.length + 1) = rowFrom [] [] str1 := by
    rw [rowFrom_nil_range str1 [], List.range_eq_range']
    rfl
  have hloop := levenshteinDistance_loop str1 str2 [] 0 rfl
  rw [levenshteinDistance]
  simp only [hrow0]
  rw [hloop]
  simp only [List.append_nil]
  rw [List.getLastD_eq_getLast?, rowFrom_getLast str1 [] str2.reverse]
  simp only [List.append_nil, Option.getD_some]
  rw [levWF_reverse]

theorem levenshteinDistance_eq_levenshtein (str1 str2 : List Char) :
    levenshteinDistance str1 str2 = levenshtein Levenshtein.defaultCost str1 str2 := by
  rw [levenshteinDistance_eq_levWF, levWF_eq_levenshtein]

theorem levWF_le_max (xs ys : List Char) :
    levWF xs ys ≤ max xs.length ys.length := by
  suffices H : ∀ n (xs ys : List Char), xs.length + ys.length ≤ n →
      levWF xs ys ≤ max xs.length ys.length from
    H (xs.length + ys.length) xs ys le_rfl
  intro n
  induction n with
  | zero =>
    intro xs ys h
    cases xs with
    | cons a X => simp at h
    | nil =>
      cases ys with
      | cons b Y => simp at h
      | nil => simp [levWF]
  | succ n ih =>
    intro xs ys h
    cases xs with
    | nil => simp [levWF_nil_left]
    | cons a X =>
      cases ys with
      | nil => simp [levWF_nil_right]
      | cons b Y =>
        rw [levWF_cons_cons]
        have hXY := ih X Y (by simp at h ⊢; omega)
        simp only [List.length_cons]
        split <;> omega

theorem levWF_eq_zero (xs ys : List Char) (h : levWF xs ys = 0) : xs = ys := by
  suffices H : ∀ n (xs ys : List Char), xs.length + ys.length ≤ n →
      levWF xs ys = 0 → xs = ys from
    H (xs.length + ys.length) xs ys le_rfl h
  intro n
  induction n with
  | zero =>
    intro xs ys h hz
    cases xs with
    | cons a X => simp at h
    | nil =>
      cases ys with
      | cons b Y => simp at h
      | nil => rfl
  | succ n ih =>
    intro xs ys h hz
    cases xs with
    | nil =>
      rw [levWF_nil_left] at hz
      rw [List.length_eq_zero] at hz
      rw [hz]
    | cons a X =>
      cases ys with
      | nil =>
        rw [levWF_nil_right] at hz
        simp at hz
      | cons b Y =>
        rw [levWF_cons_cons] at hz
        have hab : a = b := by
          by_contra hne
          rw [if_neg hne] at hz
          omega
        have hXY : levWF X Y = 0 := by
          rw [if_pos hab] at hz
          omega
        rw [hab, ih X Y (by simp at h ⊢; omega) hXY]

/-! ## Specification-side similarity -/

/-- Similarity as the specification words it: normalize both names; 100 when
the normalizations are equal; 0 when both normalizations are empty; otherwise
`round(((maxLen - distance) / maxLen) * 100)` where `distance` is the
Levenshtein edit distance (Mathlib's `levenshtein` with unit costs) and
`maxLen` the larger normalized length. -/
def similaritySpec (a b : List Char) : ℤ :=
  let na := normalizeText a
  let nb := normalizeText b
  if na = nb then 100
  else if na.length = 0 ∧ nb.length = 0 then 0
  else
    let maxLen : ℕ := max na.length nb.length
    let distance : ℕ := levenshtein Levenshtein.defaultCost na nb
    jsRound (((maxLen : ℚ) - (distance : ℚ)) / (maxLen : ℚ) * 100)

theorem calculateSimilarity_eq_spec (a b : List Char) :
    calculateSimilarity a b = similaritySpec a b := by
  rw [calculateSimilarity, similaritySpec]
  simp only [levenshteinDistance_eq_levenshtein, Nat.max_eq_zero_iff]

theorem jsRound_bounds {q : ℚ} (h0 : 0 ≤ q) (h1 : q ≤ 100) :
    0 ≤ jsRound q ∧ jsRound q ≤ 100 := by
  unfold jsRound
  constructor
  · exact Int.floor_nonneg.mpr (by linarith)
  · have h2 : (⌊q + 1 / 2⌋ : ℤ) < 101 := by
      rw [Int.floor_lt]
      push_cast
      linarith
    omega

theorem calculateSimilarity_bounds (a b : List Char) :
    0 ≤ calculateSimilarity a b ∧ calculateSimilarity a b ≤ 100 := by
  rw [calculateSimilarity]
  by_cases heq : normalizeText a = normalizeText b
  · simp [heq]
  · simp only [if_neg heq]
    by_cases hz : max (normalizeText a).length (normalizeText b).length = 0
    · simp [hz]
    · simp only [if_neg hz]
      have hd : levenshteinDistance (normalizeText a) (normalizeText b) ≤
          max (normalizeText a).length (normalizeText b).length := by
        rw [levenshteinDistance_eq_levWF]
        exact levWF_le_max _ _
      set L := max (normalizeText a).length (normalizeText b).length with hL
      set d := levenshteinDistance (normalizeText a) (normalizeText b) with hdd
      have hL1 : (1 : ℚ) ≤ (L : ℚ) := by
        have : 1 ≤ L := Nat.one_le_iff_ne_zero.mpr hz
        exact_mod_cast this
      have hdL : (d : ℚ) ≤ (L : ℚ) := by exact_mod_cast hd
      apply jsRound_bounds
      · apply mul_nonneg _ (by norm_num)
        apply div_nonneg (by linarith) (by linarith)
      · have h1 : ((L : ℚ) - (d : ℚ)) / (L : ℚ) ≤ 1 := by
          rw [div_le_one (by linarith)]
          have : (0 : ℚ) ≤ (d : ℚ) := by positivity
          linarith
        nlinarith

theorem levWF_comm (xs ys : List Char) : levWF xs ys = levWF ys xs := by
  suffices H : ∀ n (xs ys : List Char), xs.length + ys.length ≤ n →
      levWF xs ys = levWF ys xs from
    H (xs.length + ys.length) xs ys le_rfl
  intro n
  induction n with
  | zero =>
    intro xs ys h
    cases xs with
    | cons a X => simp at h
    | nil =>
      cases ys with
      | cons b Y => simp at h
      | nil => rfl
  | succ n ih =>
    intro xs ys h
    cases xs with
    | nil => rw [levWF_nil_left, levWF_nil_right]
    | cons a X =>
      cases ys with
      | nil => rw [levWF_nil_left, levWF_nil_right]
      | cons b Y =>
        rw [levWF_cons_cons, levWF_cons_cons]
        have h1 := ih X Y (by simp at h ⊢; omega)
        have h2 := ih X (b :: Y) (by simp at h ⊢; omega)
        have h3 := ih (a :: X) Y (by simp at h ⊢; omega)
        have hc : (if a = b then (0 : ℕ) else 1) = (if b = a then 0 else 1) := by
          by_cases hab : a = b
          · rw [if_pos hab, if_pos hab.symm]
          · rw [if_neg hab, if_neg (fun hba => hab hba.symm)]
        rw [h1, h2, h3, hc]
        omega

theorem levenshtein_default_comm (xs ys : List Char) :
    levenshtein Levenshtein.defaultCost xs ys = levenshtein Levenshtein.defaultCost ys xs := by
  rw [← levWF_eq_levenshtein, ← levWF_eq_levenshtein, levWF_comm]

theorem dropWhile_eq_self_of (p : α → Bool) (l : List α)
    (h : ∀ c ∈ l, p c = false) : l.dropWhile p = l := by
  cases l with
  | nil => rfl
  | cons a t =>
    rw [List.dropWhile_cons, h a (by simp)]
    simp

theorem jsTrim_of_no_space (l : List Char) (h : ∀ c ∈ l, isJsSpace c = false) :
    jsTrim l = l := by
  unfold jsTrim
  rw [dropWhile_eq_self_of _ l h,
    dropWhile_eq_self_of _ l.reverse (fun c hc => h c (List.mem_reverse.mp hc)),
    List.reverse_reverse]

theorem isLowerAlnum_not_space (c : Char) (h : isLowerAlnum c = true) :
    isJsSpace c = false := by
  by_contra hs
  have hs' : isJsSpace c = true := by
    cases hb : isJsSpace c
    · exact absurd hb hs
    · rfl
  simp only [isJsSpace, Bool.or_eq_true, decide_eq_true_eq] at hs'
  rcases hs' with ((h1 | h1) | h1) | h1 <;> subst h1 <;> exact absurd h (by decide)

theorem normalizeText_eq_filter (t : List Char) :
    normalizeText t = (t.map Char.toLower).filter isLowerAlnum := by
  unfold normalizeText
  apply jsTrim_of_no_space
  intro c hc
  exact isLowerAlnum_not_space c (List.of_mem_filter hc)

/-! ## Claims about calculateSimilarity -/

/-- C1: for every pair of strings, `calculateSimilarity` returns 100 when the
normalizations are equal, 0 when both normalizations are empty (a case already
covered by equality), and otherwise the rounded value
`round(((maxLen - distance) / maxLen) * 100)` with `distance` the Levenshtein
edit distance of the normalizations; the result always lies between 0 and 100. -/
theorem claim1_calculateSimilarity_spec (a b : List Char) :
    calculateSimilarity a b = similaritySpec a b ∧
    0 ≤ calculateSimilarity a b ∧ calculateSimilarity a b ≤ 100 :=
  ⟨calculateSimilarity_eq_spec a b, calculateSimilarity_bounds a b⟩

/-- C7: similarity is symmetric in its two arguments. -/
theorem claim7_calculateSimilarity_comm (a b : List Char) :
    calculateSimilarity a b = calculateSimilarity b a := by
  rw [calculateSimilarity_eq_spec, calculateSimilarity_eq_spec]
  rw [similaritySpec, similaritySpec]
  by_cases h : normalizeText a = normalizeText b
  · rw [if_pos h, if_pos h.symm]
  · rw [if_neg h,
      if_neg (show ¬normalizeText b = normalizeText a from fun hba => h hba.symm)]
    by_cases hz : (normalizeText a).length = 0 ∧ (normalizeText b).length = 0
    · rw [if_pos hz,
        if_pos (show (normalizeText b).length = 0 ∧ (normalizeText a).length = 0 from
          ⟨hz.2, hz.1⟩)]
    · rw [if_neg hz,
        if_neg (show ¬((normalizeText b).length = 0 ∧ (normalizeText a).length = 0) from
          fun hzz => hz ⟨hzz.2, hzz.1⟩)]
      rw [levenshtein_default_comm (normalizeText a) (normalizeText b),
        max_comm (normalizeText a).length (normalizeText b).length]

/-! ## Claims about fetchAllSources and the aggregator state -/

/-- Outcome of one adapter after the error isolation of `fetchAllSources`:
its records on success, the empty list on failure. -/
def fetchOutcome (s : DataSource) : List RawAssetData :=
  match s.fetchData with
  | .ok records => records
  | .error _ => []

theorem promiseAll_map_sourceTask (sources : List DataSource) :
    promiseAll (sources.map sourceTask) = Except.ok (sources.map fetchOutcome) := by
  induction sources with
  | nil => rfl
  | cons s rest ih =>
    rw [List.map_cons, List.map_cons]
    cases h : s.fetchData <;> simp [sourceTask, fetchOutcome, h, promiseAll, ih, Except.map]

theorem fetchAllSources_ok (agg : DataAggregator) :
    (fetchAllSources agg).1 = Except.ok ((agg.sources.map fetchOutcome).flatten) := by
  rw [fetchAllSources]
  rw [promiseAll_map_sourceTask]
  rfl

/-- C2: `fetchAllSources` never rejects: it always fulfills with the
concatenation, in registration order, of each adapter's records, a failed
adapter contributing the empty list; in particular with one failing and one
succeeding adapter it returns exactly the succeeding adapter's records. -/
theorem claim2_fetchAllSources_never_fails (agg : DataAggregator) (s1 s2 : DataSource)
    (e : List Char) (recs : List RawAssetData) :
    (fetchAllSources agg).1 = Except.ok ((agg.sources.map fetchOutcome).flatten) ∧
    (s1.fetchData = Except.error e → s2.fetchData = Except.ok recs →
      (fetchAllSources ⟨[s1, s2], agg.exchangeRates⟩).1 = Except.ok recs ∧
      (fetchAllSources ⟨[s2, s1], agg.exchangeRates⟩).1 = Except.ok recs) := by
  refine ⟨fetchAllSources_ok agg, fun h1 h2 => ⟨?_, ?_⟩⟩
  · rw [fetchAllSources_ok]
    simp [fetchOutcome, h1, h2]
  · rw [fetchAllSources_ok]
    simp [fetchOutcome, h1, h2]

def srcFail : DataSource :=
  { name := ['F'], type := .crypto, fetchData := .error ['b', 'o', 'o', 'm'], rateLimit := 0 }

def recA : RawAssetData :=
  { source := ['G'], externalId := ['e'], name := ['B', 't', 'c'], symbol := some ['B']
    price := 5, currency := ['U', 'S', 'D'], volume := some 10, marketCap := none }

def srcOk : DataSource :=
  { name := ['G'], type := .crypto, fetchData := .ok [recA], rateLimit := 0 }

theorem claim2_witness :
    (fetchAllSources ⟨[srcFail, srcOk], []⟩).1 = Except.ok [recA] ∧
    (fetchAllSources ⟨[srcOk, srcFail], []⟩).1 = Except.ok [recA] :=
  (claim2_fetchAllSources_never_fails ⟨[srcFail, srcOk], []⟩ srcFail srcOk
    ['b', 'o', 'o', 'm'] [recA]).2 rfl rfl

theorem mapLookup_isSome_iff {K V : Type} [DecidableEq K] (m : List (K × V)) (k : K) :
    (mapLookup m k).isSome = true ↔ ∃ e ∈ m, e.1 = k := by
  unfold mapLookup
  rw [show ((m.find? fun e => decide (e.1 = k)).map (·.2)).isSome =
      (m.find? fun e => decide (e.1 = k)).isSome from by
    cases m.find? fun e => decide (e.1 = k) <;> rfl]
  rw [List.find?_isSome]
  simp

theorem mapSet_isSome_preserved {K V : Type} [DecidableEq K] (m : List (K × V))
    (k : K) (v : V) (c : K) (h : (mapLookup m c).isSome = true) :
    (mapLookup (mapSet m k v) c).isSome = true := by
  rw [mapLookup_isSome_iff] at h ⊢
  obtain ⟨e, he, hek⟩ := h
  rw [mapSet]
  split
  · by_cases hk : e.1 = k
    · exact ⟨(k, v), List.mem_map.mpr ⟨e, he, by rw [if_pos hk]⟩, by rw [← hk, hek]⟩
    · exact ⟨e, List.mem_map.mpr ⟨e, he, by rw [if_neg hk]⟩, hek⟩
  · exact ⟨e, List.mem_append_left _ he, hek⟩

theorem mapSet_isSome_new {K V : Type} [DecidableEq K] (m : List (K × V)) (k : K) (v : V) :
    (mapLookup (mapSet m k v) k).isSome = true := by
  rw [mapLookup_isSome_iff, mapSet]
  split
  · rename_i hany
    rw [List.any_eq_true] at hany
    obtain ⟨e, he, hek⟩ := hany
    rw [decide_eq_true_eq] at hek
    exact ⟨(k, v), List.mem_map.mpr ⟨e, he, by rw [if_pos hek]⟩, rfl⟩
  · exact ⟨(k, v), List.mem_append_right _ (by simp), rfl⟩

theorem foldl_mapSet_preserved {K V : Type} [DecidableEq K] (rates : List (K × V)) :
    ∀ (m : List (K × V)) (c : K), (mapLookup m c).isSome = true →
    (mapLookup (rates.foldl (fun m e => mapSet m e.1 e.2) m) c).isSome = true := by
  induction rates with
  | nil => intro m c h; exact h
  | cons r rs ih =>
    intro m c h
    rw [List.foldl_cons]
    exact ih _ c (mapSet_isSome_preserved m r.1 r.2 c h)

theorem foldl_mapSet_mem {K V : Type} [DecidableEq K] (rates : List (K × V)) :
    ∀ (m : List (K × V)) (cv : K × V), cv ∈ rates →
    (mapLookup (rates.foldl (fun m e => mapSet m e.1 e.2) m) cv.1).isSome = true := by
  induction rates with
  | nil => intro m cv h; cases h
  | cons r rs ih =>
    intro m cv h
    rw [List.foldl_cons]
    rcases List.mem_cons.mp h with heq | hmem
    · subst heq
      exact foldl_mapSet_preserved rs _ cv.1 (mapSet_isSome_new m cv.1 cv.2)
    · exact ih _ cv hmem

/-- C10: `fetchAllSources` and `aggregateData` leave the aggregator state
untouched; `registerSource` appends exactly one adapter and does not touch the
rate table; `updateExchangeRates` does not touch the adapter list, never
removes a rate entry, and gives every currency mentioned in its argument an
entry. -/
theorem claim10_state_frame (agg : DataAggregator) (s : DataSource)
    (rates : List (List Char × ℚ)) (c : List Char) (cv : List Char × ℚ) :
    (fetchAllSources agg).2 = agg ∧
    (aggregateData agg).2 = agg ∧
    (registerSource agg s).sources = agg.sources ++ [s] ∧
    (registerSource agg s).exchangeRates = agg.exchangeRates ∧
    (updateExchangeRates agg rates).sources = agg.sources ∧
    ((mapLookup agg.exchangeRates c).isSome = true →
      (mapLookup (updateExchangeRates agg rates).exchangeRates c).isSome = true) ∧
    (cv ∈ rates →
      (mapLookup (updateExchangeRates agg rates).exchangeRates cv.1).isSome = true) := by
  refine ⟨rfl, rfl, rfl, rfl, rfl, fun h => ?_, fun h => ?_⟩
  · exact foldl_mapSet_preserved rates agg.exchangeRates c h
  · exact foldl_mapSet_mem rates agg.exchangeRates cv h

theorem claim10_witness :
    (fetchAllSources initAggregator).2 = initAggregator ∧
    (aggregateData initAggregator).2 = initAggregator ∧
    (registerSource initAggregator srcOk).sources = initAggregator.sources ++ [srcOk] ∧
    (registerSource initAggregator srcOk).exchangeRates = initAggregator.exchangeRates ∧
    (updateExchangeRates initAggregator [(['E', 'U', 'R'], 2)]).sources =
      initAggregator.sources ∧
    (mapLookup (updateExchangeRates initAggregator
      [(['E', 'U', 'R'], 2)]).exchangeRates ['U', 'S', 'D']).isSome = true ∧
    (mapLookup (updateExchangeRates initAggregator
      [(['E', 'U', 'R'], 2)]).exchangeRates ['E', 'U', 'R']).isSome = true := by
  have h := claim10_state_frame initAggregator srcOk [(['E', 'U', 'R'], 2)]
    ['U', 'S', 'D'] (['E', 'U', 'R'], 2)
  exact ⟨h.1, h.2.1, h.2.2.1, h.2.2.2.1, h.2.2.2.2.1,
    h.2.2.2.2.2.1 (by decide), h.2.2.2.2.2.2 (by decide)⟩

/-! ## Structure of findMatches -/

theorem findMatchesGroups_nil (t : ℚ) : findMatchesGroups t [] = [] := by
  rw [findMatchesGroups]

theorem findMatchesGroups_cons (t : ℚ) (p : RawAssetData) (rest : List RawAssetData) :
    findMatchesGroups t (p :: rest) =
      (p.name, p :: rest.filter (matchPred t p)) ::
        findMatchesGroups t (rest.filter (fun q => !(matchPred t p q))) := by
  rw [findMatchesGroups]

theorem calculateSimilarity_refl (s : List Char) : calculateSimilarity s s = 100 := by
  rw [calculateSimilarity]
  exact if_pos rfl

theorem findMatchesGroups_entry (t : ℚ) (l : List RawAssetData) (k : List Char)
    (g : List RawAssetData) (hmem : (k, g) ∈ findMatchesGroups t l) :
    ∃ seed grest, g = seed :: grest ∧ seed.name = k ∧ (∀ m ∈ g, m ∈ l) ∧
      ∀ m ∈ grest, matchPred t seed m = true := by
  suffices H : ∀ n (l : List RawAssetData), l.length ≤ n →
      ∀ (k : List Char) (g : List RawAssetData), (k, g) ∈ findMatchesGroups t l →
      ∃ seed grest, g = seed :: grest ∧ seed.name = k ∧ (∀ m ∈ g, m ∈ l) ∧
        ∀ m ∈ grest, matchPred t seed m = true from
    H l.length l le_rfl k g hmem
  intro n
  induction n with
  | zero =>
    intro l hl k g h
    rw [List.length_eq_zero.mp (Nat.le_zero.mp hl), findMatchesGroups_nil] at h
    cases h
  | succ n ih =>
    intro l hl k g h
    cases l with
    | nil =>
      rw [findMatchesGroups_nil] at h
      cases h
    | cons p rest =>
      rw [findMatchesGroups_cons] at h
      rcases List.mem_cons.mp h with hhd | htl
      · injection hhd with hk hg
        refine ⟨p, rest.filter (matchPred t p), hg, hk.symm, ?_, ?_⟩
        · intro m hm
          rw [hg] at hm
          rcases List.mem_cons.mp hm with heq | hm2
          · rw [heq]
            exact List.mem_cons_self p rest
          · exact List.mem_cons_of_mem p (List.mem_of_mem_filter hm2)
        · intro m hm
          exact (List.mem_filter.mp hm).2
      · have hlen : (rest.filter (fun q => !(matchPred t p q))).length ≤ n := by
          have h1 := List.length_filter_le (fun q => !(matchPred t p q)) rest
          simp only [List.length_cons] at hl
          omega
        obtain ⟨seed, grest, hg, hn, hmem', hmatch⟩ := ih _ hlen k g htl
        exact ⟨seed, grest, hg, hn, fun m hm =>
          List.mem_cons_of_mem p (List.mem_of_mem_filter (hmem' m hm)), hmatch⟩

theorem findMatchesGroups_flatten_perm (t : ℚ) (l : List RawAssetData) :
    (((findMatchesGroups t l).map (·.2)).flatten).Perm l := by
  suffices H : ∀ n (l : List RawAssetData), l.length ≤ n →
      (((findMatchesGroups t l).map (·.2)).flatten).Perm l from
    H l.length l le_rfl
  intro n
  induction n with
  | zero =>
    intro l hl
    rw [List.length_eq_zero.mp (Nat.le_zero.mp hl), findMatchesGroups_nil]
    exact List.Perm.refl _
  | succ n ih =>
    intro l hl
    cases l with
    | nil =>
      rw [findMatchesGroups_nil]
      exact List.Perm.refl _
    | cons p rest =>
      rw [findMatchesGroups_cons]
      simp only [List.map_cons, List.flatten_cons, List.cons_append]
      refine List.Perm.cons p ?_
      have hlen : (rest.filter (fun q => !(matchPred t p q))).length ≤ n := by
        have h1 := List.length_filter_le (fun q => !(matchPred t p q)) rest
        simp only [List.length_cons] at hl
        omega
      have h1 := List.Perm.append_left (rest.filter (matchPred t p)) (ih _ hlen)
      have h2 := List.filter_append_perm (matchPred t p) rest
      exact h1.trans h2

theorem findMatchesGroups_keys_nodup (t : ℚ) (ht : t ≤ 100) (l : List RawAssetData) :
    ((findMatchesGroups t l).map (·.1)).Nodup := by
  suffices H : ∀ n (l : List RawAssetData), l.length ≤ n →
      ((findMatchesGroups t l).map (·.1)).Nodup from
    H l.length l le_rfl
  intro n
  induction n with
  | zero =>
    intro l hl
    rw [List.length_eq_zero.mp (Nat.le_zero.mp hl), findMatchesGroups_nil]
    simp
  | succ n ih =>
    intro l hl
    cases l with
    | nil =>
      rw [findMatchesGroups_nil]
      simp
    | cons p rest =>
      rw [findMatchesGroups_cons]
      simp only [List.map_cons]
      rw [List.nodup_cons]
      have hlen : (rest.filter (fun q => !(matchPred t p q))).length ≤ n := by
        have h1 := List.length_filter_le (fun q => !(matchPred t p q)) rest
        simp only [List.length_cons] at hl
        omega
      refine ⟨?_, ih _ hlen⟩
      intro hmem
      rw [List.mem_map] at hmem
      obtain ⟨entry, hent, hkey⟩ := hmem
      obtain ⟨k, g⟩ := entry
      obtain ⟨seed, grest, hg, hn, hmem', _⟩ := findMatchesGroups_entry t _ k g hent
      have hseed : seed ∈ rest.filter (fun q => !(matchPred t p q)) :=
        hmem' seed (by rw [hg]; exact List.mem_cons_self _ _)
      have hpred := (List.mem_filter.mp hseed).2
      have hname : seed.name = p.name := by
        rw [hn]
        exact hkey
      have hmatch : matchPred t p seed = true := by
        rw [matchPred, hname, calculateSimilarity_refl]
        rw [decide_eq_true_eq]
        push_cast
        linarith
      rw [hmatch] at hpred
      simp at hpred

theorem foldl_mapSet_entry {K V : Type} [DecidableEq K] (kvs : List (K × V)) :
    ∀ (acc : List (K × V)) (e : K × V),
      e ∈ kvs.foldl (fun m kv => mapSet m kv.1 kv.2) acc → e ∈ acc ∨ e ∈ kvs := by
  induction kvs with
  | nil =>
    intro acc e h
    exact Or.inl h
  | cons kv rest ih =>
    intro acc e h
    rw [List.foldl_cons] at h
    rcases ih (mapSet acc kv.1 kv.2) e h with hm | hm
    · rw [mapSet] at hm
      split at hm
      · rcases List.mem_map.mp hm with ⟨e0, he0, hfe⟩
        by_cases hk : e0.1 = kv.1
        · rw [if_pos hk] at hfe
          right
          rw [← hfe]
          exact List.mem_cons_self _ _
        · rw [if_neg hk] at hfe
          exact Or.inl (hfe ▸ he0)
      · rcases List.mem_append.mp hm with ha | hb
        · exact Or.inl ha
        · right
          rcases List.mem_singleton.mp hb with rfl
          exact List.mem_cons_self _ _
    · exact Or.inr (List.mem_cons_of_mem _ hm)

theorem foldl_mapSet_nodup {K V : Type} [DecidableEq K] (kvs : List (K × V)) :
    ∀ (acc : List (K × V)), ((kvs.map (·.1)).Nodup) →
      (∀ k ∈ kvs.map (·.1), ∀ e ∈ acc, e.1 ≠ k) →
      kvs.foldl (fun m kv => mapSet m kv.1 kv.2) acc = acc ++ kvs := by
  induction kvs with
  | nil =>
    intro acc _ _
    simp
  | cons kv rest ih =>
    intro acc hnd hdis
    rw [List.foldl_cons]
    have hany : acc.any (fun e => decide (e.1 = kv.1)) = false := by
      rw [Bool.eq_false_iff]
      intro hc
      rw [List.any_eq_true] at hc
      obtain ⟨e, he, hek⟩ := hc
      rw [decide_eq_true_eq] at hek
      exact hdis kv.1 (by simp) e he hek
    have hset : mapSet acc kv.1 kv.2 = acc ++ [kv] := by
      rw [mapSet, if_neg (by rw [hany]; exact fun h => Bool.false_ne_true h)]
    rw [hset]
    rw [List.map_cons, List.nodup_cons] at hnd
    have hdis2 : ∀ k ∈ rest.map (·.1), ∀ e ∈ acc ++ [kv], e.1 ≠ k := by
      intro k hk e he
      rcases List.mem_append.mp he with ha | hb
      · exact hdis k (List.mem_cons_of_mem _ hk) e ha
      · rcases List.mem_singleton.mp hb with rfl
        intro hek
        exact hnd.1 (hek ▸ hk)
    rw [ih (acc ++ [kv]) hnd.2 hdis2]
    simp

theorem findMatches_eq_groups (l : List RawAssetData) (t : ℚ) (ht : t ≤ 100) :
    findMatches l t = findMatchesGroups t l := by
  rw [findMatches]
  rw [foldl_mapSet_nodup _ [] (findMatchesGroups_keys_nodup t ht l) (by simp)]
  simp

/-! ## Claims about findMatches and aggregateData -/

/-- The flattened records that `aggregateData` obtains from `fetchAllSources`. -/
def rawRecords (agg : DataAggregator) : List RawAssetData :=
  (agg.sources.map fetchOutcome).flatten

theorem aggregateData_ok (agg : DataAggregator) :
    (aggregateData agg).1 = Except.ok
      ((findMatches (rawRecords agg) 80).map fun kv => aggregateGroup agg kv.1 kv.2) := by
  simp only [aggregateData, fetchAllSources_ok]
  rfl

/-- C4 (amended: for thresholds at most 100): `findMatches` partitions its
input — the concatenation of the produced groups is a permutation of the
input list. -/
theorem claim4_partition (l : List RawAssetData) (t : ℚ) (ht : t ≤ 100) :
    (((findMatches l t).map (·.2)).flatten).Perm l := by
  rw [findMatches_eq_groups l t ht]
  exact findMatchesGroups_flatten_perm t l

def recB : RawAssetData :=
  { source := ['H'], externalId := ['f'], name := ['E', 't', 'h'], symbol := none
    price := 2, currency := ['U', 'S', 'D'], volume := none, marketCap := some 3 }

theorem claim4_witness :
    (((findMatches [recA, recB] 80).map (·.2)).flatten).Perm [recA, recB] :=
  claim4_partition [recA, recB] 80 (by norm_num)

def recD1 : RawAssetData :=
  { source := ['S'], externalId := ['1'], name := ['A'], symbol := none
    price := 1, currency := ['U', 'S', 'D'], volume := none, marketCap := none }

def recD2 : RawAssetData :=
  { source := ['T'], externalId := ['2'], name := ['A'], symbol := none
    price := 2, currency := ['U', 'S', 'D'], volume := none, marketCap := none }

/-- C4 as stated is false for thresholds above 100: two records named "A" at
threshold 101 each seed their own group, the two groups share the key "A", and
the second `Map.set` overwrites the first, dropping the first record. -/
theorem claim4_counterexample :
    ¬ ((((findMatches [recD1, recD2] 101).map (·.2)).flatten).Perm [recD1, recD2]) := by
  have hm : matchPred 101 recD1 recD2 = false := by
    rw [matchPred, show recD1.name = ['A'] from rfl, show recD2.name = ['A'] from rfl,
      calculateSimilarity_refl]
    norm_num
  have hgroups : findMatchesGroups 101 [recD1, recD2] =
      [(recD1.name, [recD1]), (recD2.name, [recD2])] := by
    rw [findMatchesGroups_cons]
    simp only [List.filter, hm, Bool.not_false]
    rw [findMatchesGroups_cons]
    simp only [List.filter, findMatchesGroups_nil]
  have hfm : findMatches [recD1, recD2] 101 = [(['A'], [recD2])] := by
    rw [findMatches, hgroups]
    simp only [List.foldl_cons, List.foldl_nil]
    decide
  rw [hfm]
  decide

/-- C9: the emitted asset's symbol comes from the group's seed only — the
seed is the first element of its group, and the asset's symbol is the seed's
symbol when present and the empty string otherwise. -/
theorem claim9_symbol_from_seed (agg : DataAggregator) (k : List Char)
    (g : List RawAssetData) (h : (k, g) ∈ findMatches (rawRecords agg) 80) :
    ∃ seed grest assets, g = seed :: grest ∧
      (aggregateData agg).1 = Except.ok assets ∧
      aggregateGroup agg k g ∈ assets ∧
      (aggregateGroup agg k g).symbol = seed.symbol.getD [] := by
  rw [findMatches_eq_groups _ 80 (by norm_num)] at h
  obtain ⟨seed, grest, hg, _, _, _⟩ := findMatchesGroups_entry 80 _ k g h
  refine ⟨seed, grest,
    (findMatches (rawRecords agg) 80).map fun kv => aggregateGroup agg kv.1 kv.2,
    hg, aggregateData_ok agg, ?_, ?_⟩
  · rw [findMatches_eq_groups _ 80 (by norm_num)]
    exact List.mem_map.mpr ⟨(k, g), h, rfl⟩
  · rw [aggregateGroup, hg]
    rfl

theorem claim9_witness :
    ∃ seed grest assets, [recA] = seed :: grest ∧
      (aggregateData ⟨[srcOk], []⟩).1 = Except.ok assets ∧
      aggregateGroup ⟨[srcOk], []⟩ recA.name [recA] ∈ assets ∧
      (aggregateGroup ⟨[srcOk], []⟩ recA.name [recA]).symbol = seed.symbol.getD [] := by
  apply claim9_symbol_from_seed ⟨[srcOk], []⟩ recA.name [recA]
  have hgroups : findMatchesGroups 80 (rawRecords ⟨[srcOk], []⟩) =
      [(recA.name, [recA])] := by
    rw [show rawRecords ⟨[srcOk], []⟩ = [recA] from rfl, findMatchesGroups_cons]
    simp only [List.filter, findMatchesGroups_nil]
  rw [findMatches, hgroups]
  decide

/-- C8: `convertToUSD` divides by the stored rate only when that rate exists
and is nonzero; a missing entry or a rate stored as 0 leaves the price
unchanged (the rate silently acts as 1). -/
theorem claim8_convertToUSD (agg : DataAggregator) (price : ℚ) (currency : List Char)
    (r : ℚ) :
    (mapLookup agg.exchangeRates currency = some r → r ≠ 0 →
      convertToUSD agg price currency = price / r) ∧
    (mapLookup agg.exchangeRates currency = none →
      convertToUSD agg price currency = price) ∧
    (mapLookup agg.exchangeRates currency = some 0 →
      convertToUSD agg price currency = price) := by
  refine ⟨fun h hr => ?_, fun h => ?_, fun h => ?_⟩
  · rw [convertToUSD, h]
    simp [jsOrOne, hr]
  · rw [convertToUSD, h]
    simp [jsOrOne]
  · rw [convertToUSD, h]
    simp [jsOrOne]

def aggC8 : DataAggregator :=
  ⟨[], [(['U', 'S', 'D'], 1), (['E', 'U', 'R'], 0), (['G', 'B', 'P'], 2)]⟩

theorem claim8_witness :
    convertToUSD aggC8 6 ['G', 'B', 'P'] = 6 / 2 ∧
    convertToUSD aggC8 6 ['J', 'P', 'Y'] = 6 ∧
    convertToUSD aggC8 6 ['E', 'U', 'R'] = 6 :=
  ⟨(claim8_convertToUSD aggC8 6 ['G', 'B', 'P'] 2).1 (by decide) (by norm_num),
   (claim8_convertToUSD aggC8 6 ['J', 'P', 'Y'] 0).2.1 (by decide),
   (claim8_convertToUSD aggC8 6 ['E', 'U', 'R'] 0).2.2 (by decide)⟩

/-! ## Claim 3: group price is the arithmetic mean of converted prices -/

/-- Rate function exactly as the claim words it: the table entry for the
currency, defaulting to 1 only when the currency has no entry. -/
def rateSpec (rates : List (List Char × ℚ)) (c : List Char) : ℚ :=
  (mapLookup rates c).getD 1

/-- Mean group price computed with the claim's rate function. -/
def claimMeanPrice (rates : List (List Char × ℚ)) (g : List RawAssetData) : ℚ :=
  (g.map fun r => r.price / rateSpec rates r.currency).sum / (g.length : ℚ)

/-- C3 (amended: a rate stored as 0 acts as 1, like a missing entry): every
emitted asset's price is the unweighted arithmetic mean over its group of
`member.price / r`, where `r` is the table entry for the member's currency
when present and nonzero, and 1 otherwise. -/
theorem claim3_mean_price (agg : DataAggregator) (k : List Char)
    (g : List RawAssetData) (h : (k, g) ∈ findMatches (rawRecords agg) 80) :
    ∃ assets, (aggregateData agg).1 = Except.ok assets ∧
      aggregateGroup agg k g ∈ assets ∧
      (aggregateGroup agg k g).price =
        (g.map fun r =>
          r.price / jsOrOne (mapLookup agg.exchangeRates r.currency)).sum /
          (g.length : ℚ) := by
  refine ⟨_, aggregateData_ok agg, List.mem_map.mpr ⟨(k, g), h, rfl⟩, ?_⟩
  show (g.map fun item => convertToUSD agg item.price item.currency).foldl (· + ·) 0 /
      ((g.map fun item => convertToUSD agg item.price item.currency).length : ℚ) = _
  rw [← List.sum_eq_foldl, List.length_map]
  rfl

def recC3 : RawAssetData :=
  { source := ['S'], externalId := ['e'], name := ['X'], symbol := none
    price := 5, currency := ['E', 'U', 'R'], volume := none, marketCap := none }

def srcC3 : DataSource :=
  { name := ['S'], type := .crypto, fetchData := .ok [recC3], rateLimit := 0 }

def aggC3 : DataAggregator :=
  ⟨[srcC3], [(['U', 'S', 'D'], 1), (['E', 'U', 'R'], 0)]⟩

theorem findMatches_single (r : RawAssetData) (t : ℚ) :
    findMatches [r] t = [(r.name, [r])] := by
  rw [findMatches, findMatchesGroups_cons]
  simp only [List.filter_nil, findMatchesGroups_nil, List.foldl_cons, List.foldl_nil]
  rfl

/-- C3 as stated is false when a rate is stored as 0: with the table mapping
EUR to 0, a single 5 EUR record is emitted with price 5 (the code treats the
zero rate as 1), while the claim's formula divides by the stored entry 0. -/
theorem claim3_counterexample :
    (aggregateData aggC3).1 =
      Except.ok [aggregateGroup aggC3 recC3.name [recC3]] ∧
    (aggregateGroup aggC3 recC3.name [recC3]).price = 5 ∧
    claimMeanPrice aggC3.exchangeRates [recC3] = 0 ∧
    (aggregateGroup aggC3 recC3.name [recC3]).price ≠
      claimMeanPrice aggC3.exchangeRates [recC3] := by
  have hlook : mapLookup aggC3.exchangeRates recC3.currency = some 0 := rfl
  have hconv : convertToUSD aggC3 recC3.price recC3.currency = 5 := by
    rw [convertToUSD, hlook]
    norm_num [jsOrOne, recC3]
  have hprice : (aggregateGroup aggC3 recC3.name [recC3]).price = 5 := by
    show ([recC3].map fun item =>
        convertToUSD aggC3 item.price item.currency).foldl (· + ·) 0 /
        ((([recC3].map fun item =>
          convertToUSD aggC3 item.price item.currency).length : ℕ) : ℚ) = 5
    simp [hconv]
  have hclaim : claimMeanPrice aggC3.exchangeRates [recC3] = 0 := by
    rw [claimMeanPrice]
    simp only [List.map_cons, List.map_nil, List.sum_cons, List.sum_nil,
      List.length_cons, List.length_nil]
    rw [show rateSpec aggC3.exchangeRates recC3.currency = 0 from by
      rw [rateSpec, hlook]
      rfl]
    norm_num
  refine ⟨?_, hprice, hclaim, by rw [hprice, hclaim]; norm_num⟩
  rw [aggregateData_ok, show rawRecords aggC3 = [recC3] from rfl, findMatches_single]
  rfl

theorem claim3_witness :
    ∃ assets, (aggregateData ⟨[srcOk], []⟩).1 = Except.ok assets ∧
      aggregateGroup ⟨[srcOk], []⟩ recA.name [recA] ∈ assets ∧
      (aggregateGroup ⟨[srcOk], []⟩ recA.name [recA]).price =
        ([recA].map fun r =>
          r.price / jsOrOne (mapLookup (⟨[srcOk], []⟩ : DataAggregator).exchangeRates
            r.currency)).sum / (([recA] : List RawAssetData).length : ℚ) := by
  apply claim3_mean_price ⟨[srcOk], []⟩ recA.name [recA]
  rw [show rawRecords ⟨[srcOk], []⟩ = [recA] from rfl, findMatches_single]
  decide

/-! ## Claim 5: behaviour of findMatches at threshold 100 -/

theorem levWF_replicate_left (n : ℕ) (x : Char) (u v : List Char) :
    levWF (List.replicate n x ++ u) (List.replicate n x ++ v) = levWF u v := by
  induction n with
  | zero => simp
  | succ n ih =>
    rw [List.replicate_succ]
    simp only [List.cons_append]
    rw [levWF_cons_cons_eq x x _ _ rfl]
    exact ih

theorem normalizeText_id_of (l : List Char)
    (h : ∀ c ∈ l, Char.toLower c = c ∧ isLowerAlnum c = true) :
    normalizeText l = l := by
  rw [normalizeText_eq_filter]
  have hmap : l.map Char.toLower = l := by
    conv_rhs => rw [← List.map_id l]
    exact List.map_congr_left fun a ha => (h a ha).1
  rw [hmap, List.filter_eq_self.mpr (fun a ha => (h a ha).2)]

theorem similarity_eq_100_norm_eq (a b : List Char)
    (hla : (normalizeText a).length < 200) (hlb : (normalizeText b).length < 200)
    (h : calculateSimilarity a b = 100) :
    normalizeText a = normalizeText b := by
  by_contra hne
  rw [calculateSimilarity] at h
  rw [if_neg hne] at h
  by_cases hz : max (normalizeText a).length (normalizeText b).length = 0
  · rw [if_pos hz] at h
    exact absurd h (by norm_num)
  · rw [if_neg hz] at h
    have hd1 : 1 ≤ levenshteinDistance (normalizeText a) (normalizeText b) := by
      by_contra hd
      push_neg at hd
      have h0 : levenshteinDistance (normalizeText a) (normalizeText b) = 0 := by omega
      rw [levenshteinDistance_eq_levWF] at h0
      exact hne (levWF_eq_zero _ _ h0)
    set L := max (normalizeText a).length (normalizeText b).length with hLdef
    set d := levenshteinDistance (normalizeText a) (normalizeText b) with hddef
    have hL0 : 0 < L := Nat.pos_of_ne_zero hz
    have hL199 : L < 200 := max_lt hla hlb
    rw [jsRound, Int.floor_eq_iff] at h
    obtain ⟨hge, _⟩ := h
    have hLq : (0 : ℚ) < (L : ℚ) := by exact_mod_cast hL0
    have h3 : (100 : ℚ) - 1 / 2 ≤ ((L : ℚ) - (d : ℚ)) * 100 / (L : ℚ) := by
      rw [div_mul_eq_mul_div] at hge
      push_cast at hge ⊢
      linarith
    rw [le_div_iff₀ hLq] at h3
    have hd1q : (1 : ℚ) ≤ (d : ℚ) := by exact_mod_cast hd1
    have hL199q : (L : ℚ) ≤ 199 := by
      have : L ≤ 199 := by omega
      exact_mod_cast this
    linarith

def nameE1 : List Char := List.replicate 250 'a'

def nameE2 : List Char := List.replicate 249 'a' ++ ['b']

def recE1 : RawAssetData :=
  { source := ['S'], externalId := ['1'], name := nameE1, symbol := none
    price := 1, currency := ['U', 'S', 'D'], volume := none, marketCap := none }

def recE2 : RawAssetData :=
  { source := ['T'], externalId := ['2'], name := nameE2, symbol := none
    price := 2, currency := ['U', 'S', 'D'], volume := none, marketCap := none }

theorem nameE1_norm : normalizeText nameE1 = nameE1 :=
  normalizeText_id_of _ (fun c hc => by
    rw [List.eq_of_mem_replicate hc]
    exact ⟨rfl, rfl⟩)

theorem nameE2_norm : normalizeText nameE2 = nameE2 :=
  normalizeText_id_of _ (fun c hc => by
    rcases List.mem_append.mp hc with h1 | h2
    · rw [List.eq_of_mem_replicate h1]
      exact ⟨rfl, rfl⟩
    · rw [List.mem_singleton.mp h2]
      exact ⟨rfl, rfl⟩)

theorem nameE_ne : nameE1 ≠ nameE2 := by
  intro heq
  have h1 : nameE1.getLast? = some 'a' := by
    rw [nameE1,
      show List.replicate 250 'a' = List.replicate 249 'a' ++ ['a'] from
        List.replicate_succ' 249 'a']
    exact List.getLast?_concat _
  have h2 : nameE2.getLast? = some 'b' := List.getLast?_concat _
  rw [heq, h2] at h1
  exact absurd (Option.some.inj h1) (by decide)

theorem levWF_nameE : levWF nameE1 nameE2 = 1 := by
  rw [nameE1, nameE2,
    show List.replicate 250 'a' = List.replicate 249 'a' ++ ['a'] from
      List.replicate_succ' 249 'a']
  rw [levWF_replicate_left 249 'a' ['a'] ['b']]
  rw [levWF_cons_cons, if_neg (by decide : ¬('a' = 'b'))]
  rw [levWF_nil_left, levWF_nil_left, levWF_nil_right]
  norm_num

theorem simE : calculateSimilarity nameE1 nameE2 = 100 := by
  rw [calculateSimilarity, nameE1_norm, nameE2_norm, if_neg nameE_ne]
  rw [levenshteinDistance_eq_levWF, levWF_nameE]
  rw [show nameE1.length = 250 from by rw [nameE1]; exact List.length_replicate _ _]
  rw [show nameE2.length = 250 from by
    rw [nameE2]
    simp only [List.length_append, List.length_replicate, List.length_cons,
      List.length_nil]]
  rw [show (max 250 250 : ℕ) = 250 from rfl]
  rw [if_neg (by norm_num : ¬(250 : ℕ) = 0)]
  rw [jsRound, Int.floor_eq_iff]
  refine ⟨by push_cast; norm_num, by push_cast; norm_num⟩

/-- C5 as stated is false: at threshold 100, a 250-character name and the
name differing from it in one character round to similarity 100 and are
grouped together although their normalizations differ. -/
theorem claim5_counterexample :
    (findMatches [recE1, recE2] 100).map (·.2) = [[recE1, recE2]] ∧
    normalizeText recE2.name ≠ normalizeText recE1.name := by
  constructor
  · have hm : matchPred 100 recE1 recE2 = true := by
      rw [matchPred, show recE1.name = nameE1 from rfl,
        show recE2.name = nameE2 from rfl, simE, decide_eq_true_eq]
      push_cast
      norm_num
    have hgroups : findMatchesGroups 100 [recE1, recE2] =
        [(recE1.name, [recE1, recE2])] := by
      rw [findMatchesGroups_cons]
      simp only [List.filter, hm, Bool.not_true, findMatchesGroups_nil]
    rw [findMatches, hgroups]
    simp only [List.foldl_cons, List.foldl_nil]
    rfl
  · rw [show recE2.name = nameE2 from rfl, show recE1.name = nameE1 from rfl,
      nameE1_norm, nameE2_norm]
    exact fun hh => nameE_ne hh.symm

/-- C5 (amended: provided every record's normalized name is shorter than 200
characters): `findMatches` at threshold 100 groups only records whose
normalized names coincide with the normalized name of the group's seed. -/
theorem claim5_threshold100 (l : List RawAssetData)
    (hlen : ∀ r ∈ l, (normalizeText r.name).length < 200)
    (k : List Char) (g : List RawAssetData) (h : (k, g) ∈ findMatches l 100) :
    ∃ seed grest, g = seed :: grest ∧ seed.name = k ∧
      ∀ m ∈ g, normalizeText m.name = normalizeText seed.name := by
  rw [findMatches_eq_groups l 100 le_rfl] at h
  obtain ⟨seed, grest, hg, hn, hsub, hmatch⟩ := findMatchesGroups_entry 100 l k g h
  refine ⟨seed, grest, hg, hn, ?_⟩
  intro m hm
  rw [hg] at hm
  rcases List.mem_cons.mp hm with heq | hm2
  · rw [heq]
  · have hp := hmatch m hm2
    rw [matchPred, decide_eq_true_eq] at hp
    have hb := calculateSimilarity_bounds seed.name m.name
    have hs100 : calculateSimilarity seed.name m.name = 100 := by
      have h2 : (100 : ℤ) ≤ calculateSimilarity seed.name m.name := by exact_mod_cast hp
      omega
    have hsm : m ∈ l := hsub m (by rw [hg]; exact List.mem_cons_of_mem _ hm2)
    have hss : seed ∈ l := hsub seed (by rw [hg]; exact List.mem_cons_self _ _)
    exact (similarity_eq_100_norm_eq seed.name m.name (hlen seed hss) (hlen m hsm)
      hs100).symm

theorem claim5_witness :
    ∃ seed grest, [recA] = seed :: grest ∧ seed.name = recA.name ∧
      ∀ m ∈ [recA], normalizeText m.name = normalizeText seed.name := by
  refine claim5_threshold100 [recA] ?_ recA.name [recA] ?_
  · intro r hr
    rw [List.mem_singleton.mp hr]
    decide
  · rw [findMatches_single]
    decide

/-! ## Claim 6: slug derivation -/

/-- Slug as the claim words it, middle step: collapse every run of characters
outside `[a-z0-9]` into a single dash. -/
def collapseRuns : List Char → List Char
  | [] => []
  | c :: rest =>
    if isLowerAlnum c then c :: collapseRuns rest
    else '-' :: collapseRuns (rest.dropWhile (fun d => !isLowerAlnum d))
termination_by l => l.length
decreasing_by
  · simp
  · simp only [List.length_cons]
    exact Nat.lt_succ_of_le (dropWhileLengthLe _ rest)

/-- Slug as the claim words it, last step: trim all leading and trailing
dashes. -/
def trimDashes (l : List Char) : List Char :=
  ((l.dropWhile (· = '-')).reverse.dropWhile (· = '-')).reverse

/-- Slug obtained as the claim words it: lowercase, collapse every run of
characters outside `[a-z0-9]` into a single dash, trim leading and
trailing dashes. -/
def slugSpec (name : List Char) : List Char :=
  trimDashes (collapseRuns (name.map Char.toLower))

theorem collapseDashes_nil : collapseDashes [] = [] := by
  rw [collapseDashes]

theorem collapseDashes_cons (c : Char) (rest : List Char) :
    collapseDashes (c :: rest) =
      if c = '-' then '-' :: collapseDashes (rest.dropWhile (· = '-'))
      else c :: collapseDashes rest := by
  rw [collapseDashes]

theorem collapseRuns_nil : collapseRuns [] = [] := by
  rw [collapseRuns]

theorem collapseRuns_cons (c : Char) (rest : List Char) :
    collapseRuns (c :: rest) =
      if isLowerAlnum c then c :: collapseRuns rest
      else '-' :: collapseRuns (rest.dropWhile (fun d => !isLowerAlnum d)) := by
  rw [collapseRuns]

theorem isLowerAlnum_ne_dash (c : Char) (h : isLowerAlnum c = true) : c ≠ '-' := by
  intro hc
  subst hc
  exact absurd h (by decide)

theorem dashify_dash_iff (c : Char) :
    decide ((if isLowerAlnum c then c else '-') = '-') = !isLowerAlnum c := by
  by_cases hb : isLowerAlnum c = true
  · rw [if_pos hb, hb]
    simp [isLowerAlnum_ne_dash c hb]
  · have hbf : isLowerAlnum c = false := by
      cases hq : isLowerAlnum c
      · rfl
      · exact absurd hq hb
    rw [if_neg hb, hbf]
    simp

theorem collapseDashes_map_dashify (l : List Char) :
    collapseDashes (l.map fun c => if isLowerAlnum c then c else '-') =
      collapseRuns l := by
  suffices H : ∀ n (l : List Char), l.length ≤ n →
      collapseDashes (l.map fun c => if isLowerAlnum c then c else '-') =
        collapseRuns l from
    H l.length l le_rfl
  intro n
  induction n with
  | zero =>
    intro l hl
    rw [List.length_eq_zero.mp (Nat.le_zero.mp hl)]
    rw [List.map_nil, collapseDashes_nil, collapseRuns_nil]
  | succ n ih =>
    intro l hl
    cases l with
    | nil => rw [List.map_nil, collapseDashes_nil, collapseRuns_nil]
    | cons c rest =>
      rw [List.map_cons]
      simp only [List.length_cons] at hl
      by_cases hb : isLowerAlnum c = true
      · rw [if_pos hb, collapseDashes_cons, if_neg (isLowerAlnum_ne_dash c hb),
          collapseRuns_cons, if_pos hb, ih rest (by omega)]
      · rw [if_neg hb, collapseDashes_cons, if_pos rfl, collapseRuns_cons, if_neg hb]
        have hfun : ((fun x => decide (x = '-')) ∘ fun c => if isLowerAlnum c then c else '-') =
            fun d => !isLowerAlnum d := funext fun d => dashify_dash_iff d
        rw [show ((rest.map fun c => if isLowerAlnum c then c else '-').dropWhile
              (· = '-')) =
            ((rest.dropWhile fun d => !isLowerAlnum d).map
              fun c => if isLowerAlnum c then c else '-') from by
          rw [List.dropWhile_map, hfun]]
        rw [ih _ (le_trans (dropWhileLengthLe _ rest) (by omega))]

theorem dropWhile_head_false {α : Type} (p : α → Bool) (l : List α) (d : α) (t : List α)
    (h : l.dropWhile p = d :: t) : p d = false := by
  induction l with
  | nil => cases h
  | cons a l ih =>
    rw [List.dropWhile_cons] at h
    split at h
    · exact ih h
    · rename_i hpa
      injection h with h1 _
      rw [h1] at hpa
      cases hb : p d
      · rfl
      · exact absurd hb hpa

theorem collapseRuns_chain (l : List Char) :
    List.Chain' (fun x y => ¬(x = '-' ∧ y = '-')) (collapseRuns l) := by
  suffices H : ∀ n (l : List Char), l.length ≤ n →
      List.Chain' (fun x y => ¬(x = '-' ∧ y = '-')) (collapseRuns l) from
    H l.length l le_rfl
  intro n
  induction n with
  | zero =>
    intro l hl
    rw [List.length_eq_zero.mp (Nat.le_zero.mp hl), collapseRuns_nil]
    simp
  | succ n ih =>
    intro l hl
    cases l with
    | nil =>
      rw [collapseRuns_nil]
      simp
    | cons c rest =>
      rw [collapseRuns_cons]
      simp only [List.length_cons] at hl
      by_cases hb : isLowerAlnum c = true
      · rw [if_pos hb, List.chain'_cons']
        refine ⟨?_, ih rest (by omega)⟩
        intro y _
        exact fun hc => isLowerAlnum_ne_dash c hb hc.1
      · rw [if_neg hb, List.chain'_cons']
        refine ⟨?_, ih _ (le_trans (dropWhileLengthLe _ rest) (by omega))⟩
        intro y hy
        cases hdw : rest.dropWhile (fun d => !isLowerAlnum d) with
        | nil =>
          rw [hdw, collapseRuns_nil] at hy
          cases hy
        | cons d t =>
          have hd : (!isLowerAlnum d) = false := dropWhile_head_false _ rest d t hdw
          have hd' : isLowerAlnum d = true := by
            cases hq : isLowerAlnum d
            · rw [hq] at hd
              cases hd
            · rfl
          rw [hdw, collapseRuns_cons, if_pos hd', List.head?_cons] at hy
          have hyd : d = y := by simpa using hy
          subst hyd
          exact fun hc => isLowerAlnum_ne_dash d hd' hc.2

theorem dropWhile_dash_head (m : List Char)
    (hw : List.Chain' (fun x y => ¬(x = '-' ∧ y = '-')) m) :
    m.dropWhile (· = '-') = if m.head? = some '-' then m.tail else m := by
  cases m with
  | nil => rfl
  | cons c t =>
    rw [List.dropWhile_cons]
    by_cases hc : c = '-'
    · rw [if_pos (by rw [hc]; exact decide_eq_true rfl)]
      rw [List.head?_cons, if_pos (by rw [hc])]
      rw [List.tail_cons]
      obtain ⟨hhead, _⟩ := List.chain'_cons'.mp hw
      cases t with
      | nil => rfl
      | cons d t2 =>
        rw [List.dropWhile_cons]
        have hd : ¬(d = '-') := by
          intro hdd
          exact hhead d (by simp) ⟨hc, hdd⟩
        rw [if_neg (by simpa using hd)]
    · rw [if_neg (by simpa using hc)]
      rw [List.head?_cons, if_neg (by intro hh; exact hc (Option.some.inj hh))]

theorem reverse_tail_reverse {α : Type} (l : List α) :
    l.reverse.tail.reverse = l.dropLast := by
  induction l using List.reverseRecOn with
  | nil => rfl
  | append_singleton l a ih => simp

theorem trimOneDash_eq_trimDashes (m : List Char)
    (hw : List.Chain' (fun x y => ¬(x = '-' ∧ y = '-')) m) :
    trimOneDash m = trimDashes m := by
  rw [trimOneDash, trimDashes]
  rw [dropWhile_dash_head m hw]
  set l1 := if m.head? = some '-' then m.tail else m with hl1
  have hw1 : List.Chain' (fun x y => ¬(x = '-' ∧ y = '-')) l1 := by
    rw [hl1]
    split
    · exact List.Chain'.tail hw
    · exact hw
  have hwr : List.Chain' (fun x y => ¬(x = '-' ∧ y = '-')) l1.reverse := by
    rw [List.chain'_reverse]
    exact List.Chain'.imp (fun a b hab hc => hab ⟨hc.2, hc.1⟩) hw1
  rw [dropWhile_dash_head l1.reverse hwr]
  rw [List.head?_reverse]
  split
  · rw [reverse_tail_reverse]
  · rw [List.reverse_reverse]

theorem generateId_eq_slugSpec (name : List Char) :
    generateId name = slugSpec name := by
  rw [generateId, slugSpec, collapseDashes_map_dashify]
  exact trimOneDash_eq_trimDashes _ (collapseRuns_chain _)

/-- C6: `generateId` computes exactly the slug described by the claim
(lowercase, collapse every run of characters outside `[a-z0-9]` to one dash,
trim leading and trailing dashes); the name "Binance Coin (BNB)" yields
"binance-coin-bnb"; and every emitted asset's id is the slug of its group
seed's unmodified name. -/
theorem claim6_slug (name : List Char) (agg : DataAggregator) (k : List Char)
    (g : List RawAssetData) (h : (k, g) ∈ findMatches (rawRecords agg) 80) :
    generateId name = slugSpec name ∧
    generateId ("Binance Coin (BNB)".toList) = "binance-coin-bnb".toList ∧
    ∃ seed grest assets, g = seed :: grest ∧ k = seed.name ∧
      (aggregateData agg).1 = Except.ok assets ∧
      aggregateGroup agg k g ∈ assets ∧
      (aggregateGroup agg k g).id = generateId seed.name := by
  refine ⟨generateId_eq_slugSpec name, ?_, ?_⟩
  · rw [generateId]
    rw [show ("Binance Coin (BNB)".toList.map Char.toLower).map
        (fun c => if isLowerAlnum c then c else '-') = "binance-coin--bnb-".toList from by
      decide]
    rw [show collapseDashes ("binance-coin--bnb-".toList) = "binance-coin-bnb-".toList from by
      simp [collapseDashes]]
    rfl
  · rw [findMatches_eq_groups _ 80 (by norm_num)] at h
    obtain ⟨seed, grest, hg, hn, _, _⟩ := findMatchesGroups_entry 80 _ k g h
    refine ⟨seed, grest, _, hg, hn.symm, aggregateData_ok agg, ?_, ?_⟩
    · rw [findMatches_eq_groups _ 80 (by norm_num)]
      exact List.mem_map.mpr ⟨(k, g), h, rfl⟩
    · show generateId k = generateId seed.name
      rw [hn]

theorem claim6_witness :
    generateId ([] : List Char) = slugSpec [] ∧
    generateId ("Binance Coin (BNB)".toList) = "binance-coin-bnb".toList ∧
    ∃ seed grest assets, [recA] = seed :: grest ∧ recA.name = seed.name ∧
      (aggregateData ⟨[srcOk], []⟩).1 = Except.ok assets ∧
      aggregateGroup ⟨[srcOk], []⟩ recA.name [recA] ∈ assets ∧
      (aggregateGroup ⟨[srcOk], []⟩ recA.name [recA]).id = generateId seed.name := by
  apply claim6_slug [] ⟨[srcOk], []⟩ recA.name [recA]
  rw [show rawRecords ⟨[srcOk], []⟩ = [recA] from rfl, findMatches_single]
  decide

end MarketAggregator
